import Mathlib

/-!
Verification development for the cron repository (package cron).

The embedding models, from the source:
  - the field compiler parseField and the expression parser Parse (cron.go),
  - the compiled Entry with its Match predicate,
  - the scheduler check cycle (scheduler.go) over an abstract store interface,
  - the in-memory reference store MemStore (the current revision embedded in
    scheduler.go: DeleteEntry by expression+name filtering, AddEvent append,
    GetEvents on the half-open interval).

Conventions of the embedding:
  - Go strings are List Char; byte indexing coincides with character indexing
    because every input relevant here is ASCII.
  - Go int is modelled as Int (the repository only compiles fields whose
    bounds fit far below any 64-bit limit, so int64 overflow is unreachable
    on the inputs the theorems quantify over).
  - The 64-bit field bitmask is a Nat kept below 2 ^ 64; the Go expression
    1 << uint64(i) is gobit i, which is 0 whenever i is negative or at least
    64, exactly as the Go shift behaves on a uint64.
  - time.Time is modelled as absolute seconds plus a fixed-offset location
    (the spec places daylight-saving handling out of scope); the civil
    calendar computation mirrors what the Go standard library produces.
  - Errors are structured inductive values; each constructor records the Go
    format string it stands for in a comment.
-/

instance {ε α : Type} [DecidableEq ε] [DecidableEq α] : DecidableEq (Except ε α) := fun x y =>
  match x, y with
  | .error a, .error b => decidable_of_iff (a = b) (by simp)
  | .error _, .ok _ => isFalse (by simp)
  | .ok _, .error _ => isFalse (by simp)
  | .ok a, .ok b => decidable_of_iff (a = b) (by simp)

/-- Character class of Go unicode.IsSpace restricted to the Latin-1 range,
which covers every whitespace character the parser tests exercise. -/
def isSpaceGo (c : Char) : Bool :=
  c = ' ' ∨ c = '\t' ∨ c = '\n' ∨ c = '\x0b' ∨ c = '\x0c' ∨ c = '\r' ∨
    c = '\x85' ∨ c = '\xa0'

/-- Go strings.TrimSpace: drop whitespace from both ends. -/
def trimSpace (s : List Char) : List Char :=
  ((s.dropWhile isSpaceGo).reverse.dropWhile isSpaceGo).reverse

/-- Helper for goSplit, accumulating the current chunk in reverse. -/
def goSplitAux (sep : Char) : List Char → List Char → List (List Char)
  | [], acc => [acc.reverse]
  | c :: rest, acc =>
    if c = sep then acc.reverse :: goSplitAux sep rest []
    else goSplitAux sep rest (c :: acc)

/-- Go strings.Split with a one-character separator: every separator splits,
empty chunks are kept, and the result is never empty. -/
def goSplit (sep : Char) (s : List Char) : List (List Char) :=
  goSplitAux sep s []

/-- Go strings.IndexByte followed by slicing: the part before the first
occurrence of sep, and the part after it when sep occurs at all. -/
def splitFirst (sep : Char) : List Char → List Char × Option (List Char)
  | [] => ([], none)
  | c :: rest =>
    if c = sep then ([], some rest)
    else
      let (a, b) := splitFirst sep rest
      (c :: a, b)

/-- Helper for goFields, accumulating the current word in reverse. -/
def goFieldsAux : List Char → List Char → List (List Char)
  | [], acc => if acc = [] then [] else [acc.reverse]
  | c :: rest, acc =>
    if isSpaceGo c then
      if acc = [] then goFieldsAux rest [] else acc.reverse :: goFieldsAux rest []
    else goFieldsAux rest (c :: acc)

/-- Go strings.Fields: split around runs of whitespace, dropping empties. -/
def goFields (s : List Char) : List (List Char) :=
  goFieldsAux s []

/-- Decimal digit value of a character, if it is a digit. -/
def digitVal (c : Char) : Option Nat :=
  if '0' ≤ c ∧ c ≤ '9' then some (c.toNat - '0'.toNat) else none

/-- Helper for digitsVal: left fold over decimal digits. -/
def digitsValAux (acc : Nat) : List Char → Option Nat
  | [] => some acc
  | c :: rest =>
    match digitVal c with
    | none => none
    | some d => digitsValAux (acc * 10 + d) rest

/-- Value of a nonempty all-digit string. -/
def digitsVal : List Char → Option Nat
  | [] => none
  | c :: rest =>
    match digitVal c with
    | none => none
    | some d => digitsValAux d rest

/-- Go strconv.Atoi: an optional single sign followed by at least one digit.
The int64 range check of the Go implementation is omitted; every value the
theorems below touch is far below that bound. -/
def atoi (s : List Char) : Option Int :=
  match s with
  | [] => none
  | c :: rest =>
    if c = '+' then
      match digitsVal rest with
      | none => none
      | some n => some (n : Int)
    else if c = '-' then
      match digitsVal rest with
      | none => none
      | some n => some (-(n : Int))
    else
      match digitsVal s with
      | none => none
      | some n => some (n : Int)

/-- Go constant star: the all-ones uint64, representing the wildcard. -/
def starMask : Nat := 2 ^ 64 - 1

/-- Go (f field) match: f & (1 << uint64(value)) != 0. -/
def fieldMatch (f : Nat) (value : Nat) : Bool :=
  f &&& (1 <<< value) != 0

/-- Go expression 1 << uint64(i) for an int64 i on a uint64 target: a
negative i converts to a count of at least 2 ^ 63 and any count of 64 or
more shifts to zero. -/
def gobit (i : Int) : Nat :=
  if 0 ≤ i ∧ i < 64 then 2 ^ i.toNat else 0

/-- Fuel-indexed body of the Go loop
for i := start; i <= end; i += interval { f |= 1 << uint64(i) }.
The caller supplies fuel of at least endI + 1 - i, which bounds the
iteration count whenever interval is at least 1. -/
def fillRangeAux : Nat → Int → Int → Int → Nat
  | 0, _, _, _ => 0
  | fuel + 1, i, endI, interval =>
    if i ≤ endI then gobit i ||| fillRangeAux fuel (i + interval) endI interval
    else 0

/-- Bits set by the Go fill loop from i to endI stepping by interval. -/
def fillRange (i endI interval : Int) : Nat :=
  fillRangeAux (endI + 1 - i).toNat i endI interval

/-- Structured parse errors; each constructor stands for one Go error site. -/
inductive ParseErr where
  /-- errors.New("empty field") -/
  | emptyField
  /-- fmt.Errorf("step given without range, expression %q", s) -/
  | stepWithoutRange (s : List Char)
  /-- fmt.Errorf("failed parsing interval expression %q: %s", step, err) -/
  | badStep (step : List Char)
  /-- fmt.Errorf("failed parsing expression %q: %s", s, err) for a start or
  end substring that strconv.Atoi rejects -/
  | badNumber (s : List Char)
  /-- fmt.Errorf("value out of range (%d - %d): %s", min, max, part) -/
  | outOfRange (lo hi : Int) (part : List Char)
  /-- Modelled divergence: with a step of zero or below, the Go fill loop
  either never terminates or walks the whole int64 wraparound; the spec
  leaves that case unspecified and flags it as an explicit error. -/
  | nonpositiveStep
  /-- fmt.Errorf("got %d want %d expressions", len(fields), 5) -/
  | wrongFieldCount (got want : Nat)
  /-- fmt.Errorf("failed parsing '<field>' field %q: %v", text, err) -/
  | fieldErr (fieldName : List Char) (text : List Char) (e : ParseErr)
deriving DecidableEq

/-- Start-and-end determination of parseField for one comma part, after the
step suffix has been removed: a leading wildcard start keeps the field
bounds, otherwise the start parses as an integer and the end substring,
when present and nonempty, parses as an integer, defaulting to the upper
bound when the end substring is empty and to the start value when there is
no dash at all (the end substring then equals the whole part). -/
def parseStartEnd (part : List Char) (lo hi : Int) :
    Except ParseErr (Int × Int) :=
  let (first, rest) := splitFirst '-' part
  let start := first
  let endStr := match rest with
    | some e => e
    | none => part
  if start = ['*'] ∨ start = ['?'] then .ok (lo, hi)
  else
    match atoi start with
    | none => .error (.badNumber start)
    | some a =>
      if endStr = [] then .ok (a, hi)
      else
        match atoi endStr with
        | none => .error (.badNumber endStr)
        | some b => .ok (a, b)

/-- Range-and-fill phase of parseField for one comma part, after the step
suffix has been removed: determine start and end, bound check, fill. -/
def parsePartRange (part : List Char) (lo hi interval : Int) :
    Except ParseErr Nat :=
  match parseStartEnd part lo hi with
  | .error e => .error e
  | .ok (startInterval, endInterval) =>
    if startInterval < lo ∨ endInterval > hi ∨ startInterval > endInterval then
      .error (.outOfRange lo hi part)
    else if interval ≤ 0 then
      .error .nonpositiveStep
    else
      .ok (fillRange startInterval endInterval interval)

/-- One comma-separated part of a field: strip and validate an optional
/step suffix, then delegate to parsePartRange. The whole trimmed field s is
carried along only for the error payload, as in the Go code. -/
def parsePart (s part : List Char) (lo hi : Int) : Except ParseErr Nat :=
  match splitFirst '/' part with
  | (r, some step) =>
    if r ≠ ['*'] ∧ r ≠ ['?'] ∧ '-' ∉ r then .error (.stepWithoutRange s)
    else
      match atoi step with
      | none => .error (.badStep step)
      | some interval => parsePartRange r lo hi interval
  | (_, none) => parsePartRange part lo hi 1

/-- Accumulating loop of parseField over the comma-separated parts. -/
def parseParts (s : List Char) (lo hi : Int) : List (List Char) → Nat →
    Except ParseErr Nat
  | [], f => .ok f
  | part :: rest, f =>
    match parsePart s part lo hi with
    | .error e => .error e
    | .ok bits => parseParts s lo hi rest (f ||| bits)

/-- Go parseField: compile one field text into a bitmask. -/
def parseField (s0 : List Char) (lo hi : Int) : Except ParseErr Nat :=
  let s := trimSpace s0
  if s = [] then .error .emptyField
  else if s = ['*'] ∨ s = ['?'] then .ok starMask
  else parseParts s lo hi (goSplit ',' s) 0

/-- Go time.Local, modelled as an arbitrary fixed offset; no claim depends
on its value. -/
def timeLocal : Int := 0

/-- Compiled cron entry. Name, Location and the five masks are built by
Parse; Meta and expression are the extra fields the current stores carry
(SqlStore.AddEvent and MemStore.DeleteEntry read them). -/
structure Entry where
  Name : List Char
  /-- Go *time.Location, modelled as a fixed offset in seconds east of UTC. -/
  Location : Int
  Meta : List Char
  expression : List Char
  minute : Nat
  hour : Nat
  dom : Nat
  month : Nat
  dow : Nat
deriving DecidableEq

/-- Go time.Time: absolute seconds since the Unix epoch plus a location. -/
structure GoTime where
  abs : Int
  loc : Int
deriving DecidableEq

/-- Go t.In(loc): same absolute instant, different location. -/
def tIn (t : GoTime) (loc : Int) : GoTime :=
  { abs := t.abs, loc := loc }

/-- Go t.Add(d) for a duration of d seconds. -/
def tAdd (t : GoTime) (d : Int) : GoTime :=
  { t with abs := t.abs + d }

/-- Go t.Equal(u): same absolute instant. -/
def tEqual (a b : GoTime) : Bool :=
  a.abs == b.abs

/-- Go t.Before(u). -/
def tBefore (a b : GoTime) : Bool :=
  decide (a.abs < b.abs)

/-- Go t.After(u). -/
def tAfter (a b : GoTime) : Bool :=
  decide (b.abs < a.abs)

/-- Seconds on the local clock of the time value. -/
def lsec (t : GoTime) : Int := t.abs + t.loc

/-- Go t.Minute(). -/
def tMinute (t : GoTime) : Nat := ((lsec t / 60) % 60).toNat

/-- Go t.Hour(). -/
def tHour (t : GoTime) : Nat := ((lsec t / 3600) % 24).toNat

/-- Days since the Unix epoch on the local clock. -/
def tDays (t : GoTime) : Int := lsec t / 86400

/-- Go int(t.Weekday()), Sunday = 0; the epoch day was a Thursday. -/
def tWeekday (t : GoTime) : Nat := ((tDays t + 4) % 7).toNat

/-- Proleptic Gregorian civil date (year, month, day) of a day count since
the Unix epoch, as the Go standard library computes it. -/
def civilFromDays (z0 : Int) : Int × Int × Int :=
  let z := z0 + 719468
  let era := z / 146097
  let doe := z - era * 146097
  let yoe := (doe - doe / 1460 + doe / 36524 - doe / 146096) / 365
  let y := yoe + era * 400
  let doy := doe - (365 * yoe + yoe / 4 - yoe / 100)
  let mp := (5 * doy + 2) / 153
  let d := doy - (153 * mp + 2) / 5 + 1
  let m := mp + (if mp < 10 then 3 else -9)
  (y + (if m ≤ 2 then 1 else 0), m, d)

/-- Go t.Day(). -/
def tDay (t : GoTime) : Nat := (civilFromDays (tDays t)).2.2.toNat

/-- Go int(t.Month()). -/
def tMonth (t : GoTime) : Nat := (civilFromDays (tDays t)).2.1.toNat

/-- Go t.Year(). -/
def tYear (t : GoTime) : Int := (civilFromDays (tDays t)).1

/-- Decimal digits of n, zero-padded on the left to width w. -/
def padNat (w n : Nat) : List Char :=
  let ds := Nat.toDigits 10 n
  List.replicate (w - ds.length) '0' ++ ds

/-- Signed zero-padded decimal, for the year component. -/
def padInt (w : Nat) (n : Int) : List Char :=
  if n < 0 then '-' :: padNat w (-n).toNat else padNat w n.toNat

/-- Go t.Format("2006-01-02-15-04"): the minute-granularity timestamp the
scheduler uses in dedup keys. -/
def formatMinuteKey (t : GoTime) : List Char :=
  padInt 4 (tYear t) ++ '-' :: padNat 2 (tMonth t) ++ '-' :: padNat 2 (tDay t)
    ++ '-' :: padNat 2 (tHour t) ++ '-' :: padNat 2 (tMinute t)

/-- Go Entry.Match: convert into the Location of the entry, then require
the five field bits, in the order of the source. -/
def Entry.Match (e : Entry) (t : GoTime) : Bool :=
  let tl := tIn t e.Location
  fieldMatch e.minute (tMinute tl) &&
    fieldMatch e.hour (tHour tl) &&
    fieldMatch e.dom (tDay tl) &&
    fieldMatch e.dow (tWeekday tl) &&
    fieldMatch e.month (tMonth tl)

/-- Go Parse: split into exactly 5 whitespace-separated fields, compile each
with its bounds, wrapping errors with the human field name. The Go version
returns a partially filled Entry next to a non-nil error; the embedding
keeps only the error in that case. -/
def Parse (expression : List Char) (loc : Option Int) (name : List Char) :
    Except ParseErr Entry :=
  let locv := loc.getD timeLocal
  match goFields expression with
  | [f0, f1, f2, f3, f4] =>
    match parseField f0 0 59 with
    | .error e => .error (.fieldErr "minute".toList f0 e)
    | .ok minuteF =>
      match parseField f1 0 23 with
      | .error e => .error (.fieldErr "hour".toList f1 e)
      | .ok hourF =>
        match parseField f2 1 31 with
        | .error e => .error (.fieldErr "day of month".toList f2 e)
        | .ok domF =>
          match parseField f3 1 12 with
          | .error e => .error (.fieldErr "month".toList f3 e)
          | .ok monthF =>
            match parseField f4 0 6 with
            | .error e => .error (.fieldErr "day of week".toList f4 e)
            | .ok dowF =>
              .ok { Name := name, Location := locv, Meta := [],
                    expression := expression, minute := minuteF,
                    hour := hourF, dom := domF, month := monthF, dow := dowF }
  | l => .error (.wrongFieldCount l.length 5)

/-- Go Event: record of an executed entry. -/
structure Event where
  Entry : Entry
  Time : GoTime
deriving DecidableEq

/-- Dedup key of a recorded event: e.Entry.Name + "|" + formatted time. -/
def eventKey (ev : Event) : List Char :=
  ev.Entry.Name ++ '|' :: formatMinuteKey ev.Time

/-- Dedup key the check loop computes for an entry at the tick time. -/
def entryKey (e : Entry) (onT : GoTime) : List Char :=
  e.Name ++ '|' :: formatMinuteKey onT

/-- Abstract store interface as the scheduler consumes it. Each operation
returns the successor store state next to its result; an error from the
deferred UnLock is discarded by check, as in Go. -/
structure StoreOps (σ ε : Type) where
  lock : σ → σ × Option ε
  unlock : σ → σ × Option ε
  getEntries : σ → σ × Except ε (List Entry)
  getEvents : σ → GoTime → GoTime → σ × Except ε (List Event)
  addEvent : σ → Event → σ × Option ε

/-- Errors a check cycle reports, fatally (returned) or non-fatally
(passed to log, hence to the diagnostic channel). -/
inductive CheckErr (ε : Type) where
  /-- fmt.Errorf("locking store failed: %v", err) -/
  | lockFailed (e : ε)
  /-- fmt.Errorf("failed to get entries: %v", err) -/
  | getEntriesFailed (e : ε)
  /-- fmt.Errorf("failed to get events: %v", err) -/
  | getEventsFailed (e : ε)
  /-- fmt.Errorf("got empty name for an event entry %+v", e.Entry) -/
  | emptyEventName (e : Entry)
  /-- fmt.Errorf("got empty name for an event entry %+v", e) in the entry loop -/
  | emptyEntryName (e : Entry)
  /-- fmt.Errorf("failed to store event: %v", err) -/
  | addEventFailed (e : ε)
deriving DecidableEq

/-- Result of one check cycle: final store state, handler dispatches in
initiation order, non-fatal errors in report order, and the return value. -/
structure CheckResult (σ ε : Type) where
  store : σ
  dispatched : List (List Char)
  logged : List (CheckErr ε)
  ret : Option (CheckErr ε)

/-- First loop of check: collect the dedup keys of the events already
recorded for this minute, reporting events whose entry name is empty. -/
def buildTriggered {ε : Type} : List Event →
    List (List Char) × List (CheckErr ε)
  | [] => ([], [])
  | ev :: rest =>
    let (ks, ls) := buildTriggered rest
    if ev.Entry.Name = [] then (ks, .emptyEventName ev.Entry :: ls)
    else (eventKey ev :: ks, ls)

/-- Second loop of check over the active entries: skip empty names and
non-matching entries, skip already-triggered keys, otherwise persist the
event and, on success, dispatch the handler with the entry name. The
triggered-key set is never extended inside the loop, as in the source. -/
def checkEntries {σ ε : Type} (ops : StoreOps σ ε) (onT : GoTime)
    (keys : List (List Char)) : σ → List Entry →
    σ × List (List Char) × List (CheckErr ε)
  | s, [] => (s, [], [])
  | s, e :: rest =>
    if e.Name = [] then
      let (s1, d, l) := checkEntries ops onT keys s rest
      (s1, d, .emptyEntryName e :: l)
    else if e.Match onT then
      if entryKey e onT ∈ keys then checkEntries ops onT keys s rest
      else
        match ops.addEvent s { Entry := e, Time := onT } with
        | (s1, some err) =>
          let (s2, d, l) := checkEntries ops onT keys s1 rest
          (s2, d, .addEventFailed err :: l)
        | (s1, none) =>
          let (s2, d, l) := checkEntries ops onT keys s1 rest
          (s2, e.Name :: d, l)
    else checkEntries ops onT keys s rest

/-- Go Scheduler.check on the tick time: lock, load entries and the events
of the half-open minute interval, then run the entry loop; the store is
unlocked on every exit path after a successful lock. The nil-store guard of
the Go code is unrepresentable here because the interface is a value. -/
def check {σ ε : Type} (ops : StoreOps σ ε) (s : σ) (onT : GoTime) :
    CheckResult σ ε :=
  match ops.lock s with
  | (s1, some e) =>
    { store := s1, dispatched := [], logged := [], ret := some (.lockFailed e) }
  | (s1, none) =>
    match ops.getEntries s1 with
    | (s2, .error e) =>
      { store := (ops.unlock s2).1, dispatched := [], logged := [],
        ret := some (.getEntriesFailed e) }
    | (s2, .ok entries) =>
      match ops.getEvents s2 onT (tAdd onT 60) with
      | (s3, .error e) =>
        { store := (ops.unlock s3).1, dispatched := [], logged := [],
          ret := some (.getEventsFailed e) }
      | (s3, .ok events) =>
        let (keys, logs1) := buildTriggered events
        let (s4, disp, logs2) := checkEntries ops onT keys s3 entries
        { store := (ops.unlock s4).1, dispatched := disp,
          logged := logs1 ++ logs2, ret := none }

/-- Go MemStore (current revision): entries and events in memory. The mutex
is the lock discipline, not data, and is not part of the state. -/
structure MemStore where
  entries : List Entry
  events : List Event
deriving DecidableEq

/-- Loop of MemStore.GetEvents: keep events with from <= time < to. -/
def memGetEventsList (fromT toT : GoTime) : List Event → List Event
  | [] => []
  | v :: rest =>
    if (tEqual v.Time fromT || tAfter v.Time fromT) && tBefore v.Time toT then
      v :: memGetEventsList fromT toT rest
    else memGetEventsList fromT toT rest

/-- Go MemStore.GetEvents. -/
def memGetEvents (m : MemStore) (fromT toT : GoTime) : List Event :=
  memGetEventsList fromT toT m.events

/-- Loop of MemStore.DeleteEntry: keep entries unless both the expression
text and the name equal those of the argument. -/
def memDeleteEntryList (e : Entry) : List Entry → List Entry
  | [] => []
  | v :: rest =>
    if v.expression = e.expression ∧ v.Name = e.Name then
      memDeleteEntryList e rest
    else v :: memDeleteEntryList e rest

/-- Go MemStore.DeleteEntry. -/
def memDeleteEntry (m : MemStore) (e : Entry) : MemStore :=
  { m with entries := memDeleteEntryList e m.entries }

/-- Go MemStore.AddEvent: append. -/
def memAddEvent (m : MemStore) (ev : Event) : MemStore :=
  { m with events := m.events ++ [ev] }

/-- Go MemStore.AddEntry: append. -/
def memAddEntry (m : MemStore) (e : Entry) : MemStore :=
  { m with entries := m.entries ++ [e] }

/-- MemStore as a StoreOps instance; no operation can fail. -/
def memOps : StoreOps MemStore Empty where
  lock := fun s => (s, none)
  unlock := fun s => (s, none)
  getEntries := fun s => (s, .ok s.entries)
  getEvents := fun s fromT toT => (s, .ok (memGetEvents s fromT toT))
  addEvent := fun s ev => (memAddEvent s ev, none)

/-- Dedup keys of the already-recorded events with non-empty entry names,
in store order: the contents of the triggered map that check builds. -/
def firedKeys (events : List Event) : List (List Char) :=
  (events.filter (fun ev => ev.Entry.Name ≠ [])).map eventKey

/-- Whether an entry newly fires during a check at the tick time, given the
dedup keys of the already-recorded events. -/
def firesB (onT : GoTime) (keys : List (List Char)) (e : Entry) : Bool :=
  e.Name ≠ [] && e.Match onT && decide (entryKey e onT ∉ keys)

/-! ## Helper lemmas -/

theorem fieldMatch_testBit (f v : Nat) : fieldMatch f v = f.testBit v := by
  rw [fieldMatch, Nat.one_shiftLeft, Nat.and_two_pow]
  rcases f.testBit v with _ | _ <;> simp

theorem dropWhile_eq_self {p : Char → Bool} {s : List Char}
    (h : ∀ c ∈ s, p c = false) : s.dropWhile p = s := by
  cases s with
  | nil => rfl
  | cons c rest =>
    rw [List.dropWhile_cons, h c (List.mem_cons_self c rest)]
    simp

theorem trimSpace_eq_self {s : List Char}
    (h : ∀ c ∈ s, isSpaceGo c = false) : trimSpace s = s := by
  rw [trimSpace, dropWhile_eq_self h, dropWhile_eq_self, List.reverse_reverse]
  intro c hc
  exact h c (List.mem_reverse.mp hc)

theorem goSplitAux_not_mem {sep : Char} {s : List Char} (acc : List Char)
    (h : sep ∉ s) : goSplitAux sep s acc = [acc.reverse ++ s] := by
  induction s generalizing acc with
  | nil => simp [goSplitAux]
  | cons c rest ih =>
    have hc : ¬c = sep := fun hh => h (hh ▸ List.mem_cons_self c rest)
    have hr : sep ∉ rest := fun hh => h (List.mem_cons_of_mem c hh)
    rw [goSplitAux, if_neg hc, ih (c :: acc) hr]
    simp

theorem goSplit_not_mem {sep : Char} {s : List Char} (h : sep ∉ s) :
    goSplit sep s = [s] := by
  rw [goSplit, goSplitAux_not_mem [] h]
  simp

theorem splitFirst_not_mem {sep : Char} {s : List Char} (h : sep ∉ s) :
    splitFirst sep s = (s, none) := by
  induction s with
  | nil => rfl
  | cons c rest ih =>
    have hc : ¬c = sep := fun hh => h (hh ▸ List.mem_cons_self c rest)
    have hr : sep ∉ rest := fun hh => h (List.mem_cons_of_mem c hh)
    rw [splitFirst, if_neg hc, ih hr]

theorem splitFirst_append {sep : Char} {xs ys : List Char} (h : sep ∉ xs) :
    splitFirst sep (xs ++ sep :: ys) = (xs, some ys) := by
  induction xs with
  | nil => simp [splitFirst]
  | cons c rest ih =>
    have hc : ¬c = sep := fun hh => h (hh ▸ List.mem_cons_self c rest)
    have hr : sep ∉ rest := fun hh => h (List.mem_cons_of_mem c hh)
    rw [List.cons_append, splitFirst, if_neg hc, ih hr]

theorem digitsValAux_chars {l : List Char} :
    ∀ {acc n : Nat}, digitsValAux acc l = some n → ∀ c ∈ l, '0' ≤ c ∧ c ≤ '9' := by
  induction l with
  | nil => simp
  | cons c rest ih =>
    intro acc n h d hd
    rw [digitsValAux] at h
    cases hdv : digitVal c with
    | none => rw [hdv] at h; cases h
    | some dv =>
      rw [hdv] at h
      have hc : '0' ≤ c ∧ c ≤ '9' := by
        by_contra hcon
        rw [digitVal, if_neg hcon] at hdv
        cases hdv
      rcases List.mem_cons.mp hd with rfl | hd2
      · exact hc
      · exact ih h d hd2

theorem digitsVal_chars {l : List Char} {n : Nat} (h : digitsVal l = some n) :
    ∀ c ∈ l, '0' ≤ c ∧ c ≤ '9' := by
  cases l with
  | nil => simp
  | cons c rest =>
    intro d hd
    rw [digitsVal] at h
    cases hdv : digitVal c with
    | none => rw [hdv] at h; cases h
    | some dv =>
      rw [hdv] at h
      have hc : '0' ≤ c ∧ c ≤ '9' := by
        by_contra hcon
        rw [digitVal, if_neg hcon] at hdv
        cases hdv
      rcases List.mem_cons.mp hd with rfl | hd2
      · exact hc
      · exact digitsValAux_chars h d hd2

theorem atoi_chars {l : List Char} {v : Int} (h : atoi l = some v) :
    ∀ c ∈ l, c = '+' ∨ c = '-' ∨ ('0' ≤ c ∧ c ≤ '9') := by
  cases l with
  | nil => simp
  | cons c rest =>
    intro d hd
    rw [atoi] at h
    by_cases hp : c = '+'
    · rw [if_pos hp] at h
      cases hn : digitsVal rest with
      | none => rw [hn] at h; cases h
      | some n =>
        rcases List.mem_cons.mp hd with rfl | hd2
        · exact Or.inl hp
        · exact Or.inr (Or.inr (digitsVal_chars hn d hd2))
    · rw [if_neg hp] at h
      by_cases hm : c = '-'
      · rw [if_pos hm] at h
        cases hn : digitsVal rest with
        | none => rw [hn] at h; cases h
        | some n =>
          rcases List.mem_cons.mp hd with rfl | hd2
          · exact Or.inr (Or.inl hm)
          · exact Or.inr (Or.inr (digitsVal_chars hn d hd2))
      · rw [if_neg hm] at h
        cases hn : digitsVal (c :: rest) with
        | none => rw [hn] at h; cases h
        | some n => exact Or.inr (Or.inr (digitsVal_chars hn d hd))

theorem isSpaceGo_false_of_classified {c : Char}
    (h : c = '+' ∨ c = '-' ∨ ('0' ≤ c ∧ c ≤ '9')) : isSpaceGo c = false := by
  rcases h with rfl | rfl | ⟨h1, h2⟩
  · decide
  · decide
  · rw [isSpaceGo]
    simp only [decide_eq_false_iff_not]
    rintro (rfl | rfl | rfl | rfl | rfl | rfl | rfl | rfl) <;>
      first
        | exact absurd h1 (by decide)
        | exact absurd h2 (by decide)

theorem atoi_no_special {l : List Char} {v : Int} (h : atoi l = some v) :
    l ≠ [] ∧ '/' ∉ l ∧ ',' ∉ l ∧ l ≠ ['*'] ∧ l ≠ ['?'] ∧
      (∀ c ∈ l, isSpaceGo c = false) := by
  have hch := atoi_chars h
  refine ⟨?_, ?_, ?_, ?_, ?_, ?_⟩
  · rintro rfl; rw [atoi] at h; cases h
  · intro hm; have hc := hch '/' hm; revert hc; decide
  · intro hm; have hc := hch ',' hm; revert hc; decide
  · rintro rfl; have hc := hch '*' (by simp); revert hc; decide
  · rintro rfl; have hc := hch '?' (by simp); revert hc; decide
  · exact fun c hc => isSpaceGo_false_of_classified (hch c hc)

theorem atoi_nonneg {l : List Char} {v : Int} (h : atoi l = some v)
    (hd : '-' ∉ l) : 0 ≤ v := by
  cases l with
  | nil => rw [atoi] at h; cases h
  | cons c rest =>
    rw [atoi] at h
    by_cases hp : c = '+'
    · rw [if_pos hp] at h
      cases hn : digitsVal rest with
      | none => rw [hn] at h; cases h
      | some n =>
        rw [hn] at h
        cases h
        exact Int.natCast_nonneg n
    · rw [if_neg hp] at h
      have hm : ¬c = '-' := fun hh => hd (hh ▸ List.mem_cons_self c rest)
      rw [if_neg hm] at h
      cases hn : digitsVal (c :: rest) with
      | none => rw [hn] at h; cases h
      | some n =>
        rw [hn] at h
        cases h
        exact Int.natCast_nonneg n

theorem memGetEventsList_eq_filter (fromT toT : GoTime) (l : List Event) :
    memGetEventsList fromT toT l =
      l.filter (fun v =>
        (tEqual v.Time fromT || tAfter v.Time fromT) && tBefore v.Time toT) := by
  induction l with
  | nil => rfl
  | cons v rest ih => rw [memGetEventsList, List.filter_cons]; split <;> simp_all

theorem memDeleteEntryList_eq_filter (e : Entry) (l : List Entry) :
    memDeleteEntryList e l =
      l.filter (fun v =>
        ¬(v.expression = e.expression ∧ v.Name = e.Name)) := by
  induction l with
  | nil => rfl
  | cons v rest ih =>
    rw [memDeleteEntryList, List.filter_cons]
    by_cases hv : v.expression = e.expression ∧ v.Name = e.Name <;> simp_all

/-! ## Claim theorems -/

/-- C4: for every pair of timestamps, MemStore.GetEvents returns exactly the
stored events whose time lies in the half-open interval from `from`
inclusive to `to` exclusive; an event with time equal to `to` is excluded. -/
theorem claimC4_getEvents_half_open (m : MemStore) (fromT toT : GoTime) :
    memGetEvents m fromT toT =
      m.events.filter (fun v =>
        (tEqual v.Time fromT || tAfter v.Time fromT) && tBefore v.Time toT) ∧
    (∀ ev : Event, ev ∈ memGetEvents m fromT toT ↔
      (ev ∈ m.events ∧ fromT.abs ≤ ev.Time.abs ∧ ev.Time.abs < toT.abs)) := by
  refine ⟨memGetEventsList_eq_filter fromT toT m.events, fun ev => ?_⟩
  rw [memGetEvents, memGetEventsList_eq_filter, List.mem_filter]
  simp only [tEqual, tAfter, tBefore, Bool.and_eq_true, Bool.or_eq_true,
    beq_iff_eq, decide_eq_true_eq]
  constructor
  · rintro ⟨hm, hlo, hhi⟩
    exact ⟨hm, by omega, hhi⟩
  · rintro ⟨hm, hlo, hhi⟩
    exact ⟨hm, by omega, hhi⟩

/-- C5: MemStore.DeleteEntry removes exactly the stored entries whose
expression text and name both equal those of the argument, leaves every
other entry present in order, and leaves the events untouched. -/
theorem claimC5_deleteEntry_by_expression_name (m : MemStore) (e : Entry) :
    (memDeleteEntry m e).entries =
      m.entries.filter (fun v =>
        ¬(v.expression = e.expression ∧ v.Name = e.Name)) ∧
    (∀ v : Entry, v ∈ (memDeleteEntry m e).entries ↔
      (v ∈ m.entries ∧ ¬(v.expression = e.expression ∧ v.Name = e.Name))) ∧
    (memDeleteEntry m e).events = m.events := by
  refine ⟨memDeleteEntryList_eq_filter e m.entries, fun v => ?_, rfl⟩
  rw [memDeleteEntry]
  simp only [memDeleteEntryList_eq_filter, List.mem_filter, decide_not,
    Bool.not_eq_true', decide_eq_false_iff_not]

/-- C8: Parse succeeds only when splitting the expression on whitespace
yields exactly 5 tokens; any other token count produces the error that
reports the actual and the expected field count. -/
theorem claimC8_five_fields (expression : List Char) (loc : Option Int)
    (name : List Char) :
    ((goFields expression).length ≠ 5 →
      Parse expression loc name =
        .error (.wrongFieldCount (goFields expression).length 5)) ∧
    (∀ e : Entry, Parse expression loc name = .ok e →
      (goFields expression).length = 5) := by
  have hmain : (goFields expression).length ≠ 5 →
      Parse expression loc name =
        .error (.wrongFieldCount (goFields expression).length 5) := by
    intro h
    rcases hl : goFields expression with _ | ⟨a, _ | ⟨b, _ | ⟨c, _ | ⟨d, _ | ⟨e, _ | ⟨f, l⟩⟩⟩⟩⟩⟩ <;>
      rw [hl] at h <;> simp_all [Parse]
  refine ⟨hmain, fun e he => ?_⟩
  by_contra hne
  rw [hmain hne] at he
  cases he

/-- C8 witness: a 4-token expression is rejected with the count error. -/
theorem claimC8_witness :
    (goFields "* * * *".toList).length ≠ 5 ∧
      Parse "* * * *".toList (some 0) "x".toList =
        .error (.wrongFieldCount (goFields "* * * *".toList).length 5) :=
  ⟨by decide, (claimC8_five_fields "* * * *".toList (some 0) "x".toList).1 (by decide)⟩

/-- C3: Entry.Match holds exactly when, after converting the instant into
the Location of the entry, the minute, hour, day-of-month, day-of-week and
month bits are all set — a pure conjunction of the five fields with no OR
between day-of-month and day-of-week; and the same absolute instant can
match under one entry timezone and not under another. -/
theorem claimC3_match_conjunctive_timezone :
    (∀ (e : Entry) (t : GoTime),
      e.Match t = true ↔
        (e.minute.testBit (tMinute (tIn t e.Location)) = true ∧
         e.hour.testBit (tHour (tIn t e.Location)) = true ∧
         e.dom.testBit (tDay (tIn t e.Location)) = true ∧
         e.dow.testBit (tWeekday (tIn t e.Location)) = true ∧
         e.month.testBit (tMonth (tIn t e.Location)) = true)) ∧
    (∃ (e : Entry) (loc2 : Int) (t : GoTime),
      e.Match t = true ∧ Entry.Match { e with Location := loc2 } t = false) := by
  constructor
  · intro e t
    rw [Entry.Match]
    simp only [fieldMatch_testBit, Bool.and_eq_true]
    tauto
  · refine ⟨{ Name := ['A'], Location := 0, Meta := [], expression := [],
              minute := 2 ^ 0, hour := 2 ^ 0, dom := starMask,
              month := starMask, dow := starMask },
            3600, { abs := 0, loc := 7 }, by decide, by decide⟩

/-- C7: a part carrying a /step suffix whose portion before the slash is a
bare single value — not an asterisk or question mark and containing no dash
— fails with the step-given-without-range error, for every bounds pair. -/
theorem claimC7_step_without_range (x y : List Char) (lo hi : Int)
    (hslash : '/' ∉ x) (hcx : ',' ∉ x) (hcy : ',' ∉ y) (hdx : '-' ∉ x)
    (hxs : x ≠ ['*']) (hxq : x ≠ ['?'])
    (htrim : trimSpace (x ++ '/' :: y) = x ++ '/' :: y) :
    parseField (x ++ '/' :: y) lo hi =
      .error (.stepWithoutRange (x ++ '/' :: y)) := by
  have hs : '/' ∈ x ++ '/' :: y :=
    List.mem_append_right x (List.mem_cons_self '/' y)
  have hne : x ++ '/' :: y ≠ [] := by
    intro hh
    rw [hh] at hs
    cases hs
  have hnstar : ¬(x ++ '/' :: y = ['*'] ∨ x ++ '/' :: y = ['?']) := by
    rintro (hh | hh) <;>
      exact absurd (List.mem_singleton.mp (hh ▸ hs)) (by decide)
  have hcs : ',' ∉ x ++ '/' :: y := by
    intro hm
    rcases List.mem_append.mp hm with hm | hm
    · exact hcx hm
    · rcases List.mem_cons.mp hm with he | hm
      · exact absurd he (by decide)
      · exact hcy hm
  rw [parseField]
  simp only [htrim, if_neg hne, if_neg hnstar, goSplit_not_mem hcs]
  rw [parseParts, parsePart, splitFirst_append hslash]
  have hcond : x ≠ ['*'] ∧ x ≠ ['?'] ∧ '-' ∉ x := ⟨hxs, hxq, hdx⟩
  simp only [if_pos hcond]

/-- C7 witness: the concrete part 30/2 of the spec example. -/
theorem claimC7_witness :
    '/' ∉ "30".toList ∧
      parseField ("30".toList ++ '/' :: "2".toList) 0 59 =
        .error (.stepWithoutRange ("30".toList ++ '/' :: "2".toList)) :=
  ⟨by decide,
    claimC7_step_without_range "30".toList "2".toList 0 59 (by decide)
      (by decide) (by decide) (by decide) (by decide) (by decide) (by decide)⟩

theorem gobit_testBit (j : Int) (i : Nat) :
    (gobit j).testBit i = true ↔ (0 ≤ j ∧ j < 64 ∧ (i : Int) = j) := by
  rw [gobit]
  split
  · next hj =>
    rw [Nat.testBit_two_pow]
    simp only [decide_eq_true_eq]
    constructor
    · intro h
      exact ⟨hj.1, hj.2, by omega⟩
    · rintro ⟨_, _, h⟩
      omega
  · next hj =>
    simp only [Nat.zero_testBit, Bool.false_eq_true, false_iff]
    rintro ⟨h1, h2, h3⟩
    exact hj ⟨h1, h2⟩

theorem fillRangeAux_testBit {c : Int} (hc : 0 < c) :
    ∀ (fuel : Nat) (a b : Int), (b + 1 - a).toNat ≤ fuel →
      ∀ i : Nat, (fillRangeAux fuel a b c).testBit i = true ↔
        (i < 64 ∧ ∃ k : Nat, (i : Int) = a + k * c ∧ (i : Int) ≤ b) := by
  intro fuel
  induction fuel with
  | zero =>
    intro a b hf i
    rw [fillRangeAux]
    simp only [Nat.zero_testBit, Bool.false_eq_true, false_iff]
    rintro ⟨h64, k, hk, hkb⟩
    have hkc : (0 : Int) ≤ (k : Int) * c := mul_nonneg (Int.natCast_nonneg k) hc.le
    omega
  | succ fuel ih =>
    intro a b hf i
    rw [fillRangeAux]
    by_cases hab : a ≤ b
    · rw [if_pos hab]
      have hfuel : (b + 1 - (a + c)).toNat ≤ fuel := by omega
      rw [Nat.testBit_or]
      simp only [Bool.or_eq_true, gobit_testBit, ih (a + c) b hfuel i]
      constructor
      · rintro (⟨ha0, ha64, hia⟩ | ⟨h64, k, hk, hkb⟩)
        · exact ⟨by omega, 0, by simpa using hia, by omega⟩
        · refine ⟨h64, k + 1, ?_, hkb⟩
          have hmul : ((k : Int) + 1) * c = (k : Int) * c + c := by ring
          push_cast
          linarith [hk]
      · rintro ⟨h64, k, hk, hkb⟩
        rcases k with _ | k
        · left
          simp only [Nat.cast_zero, zero_mul, add_zero] at hk
          exact ⟨by omega, by omega, hk⟩
        · right
          refine ⟨h64, k, ?_, hkb⟩
          have hmul : ((k : Int) + 1) * c = (k : Int) * c + c := by ring
          push_cast at hk
          linarith [hk]
    · rw [if_neg hab]
      simp only [Nat.zero_testBit, Bool.false_eq_true, false_iff]
      rintro ⟨h64, k, hk, hkb⟩
      have hkc : (0 : Int) ≤ (k : Int) * c := mul_nonneg (Int.natCast_nonneg k) hc.le
      omega

theorem fillRange_testBit {a b c : Int} (hc : 0 < c) (i : Nat) :
    (fillRange a b c).testBit i = true ↔
      (i < 64 ∧ ∃ k : Nat, (i : Int) = a + k * c ∧ (i : Int) ≤ b) :=
  fillRangeAux_testBit hc _ a b le_rfl i

theorem parseField_single (s : List Char) (lo hi : Int)
    (htrim : trimSpace s = s) (hne : s ≠ []) (hstar : s ≠ ['*'])
    (hq : s ≠ ['?']) (hcomma : ',' ∉ s) :
    parseField s lo hi =
      match parsePart s s lo hi with
      | .error e => .error e
      | .ok bits => .ok bits := by
  rw [parseField]
  have hns : ¬(s = ['*'] ∨ s = ['?']) := by
    rintro (h | h)
    · exact hstar h
    · exact hq h
  simp only [htrim, if_neg hne, if_neg hns, goSplit_not_mem hcomma]
  rw [parseParts]
  cases h : parsePart s s lo hi with
  | error e => rfl
  | ok bits => simp only [parseParts, Nat.zero_or]

/-- C10: a part of the form value-dash with an empty end substring parses
as if the range ran to the upper bound: it succeeds and sets exactly the
bits from the value through max. -/
theorem claimC10_open_ended_range (sv : List Char) (v lo hi : Int)
    (hv : atoi sv = some v) (hnd : '-' ∉ sv) (h1 : lo ≤ v) (h2 : v ≤ hi)
    (h64 : hi ≤ 63) :
    parseField (sv ++ ['-']) lo hi = .ok (fillRange v hi 1) ∧
    (∀ i : Nat, (fillRange v hi 1).testBit i = true ↔
      (v ≤ (i : Int) ∧ (i : Int) ≤ hi)) := by
  obtain ⟨hne0, hslash0, hcomma0, hstar0, hq0, hnospace0⟩ := atoi_no_special hv
  have hmd : '-' ∈ sv ++ ['-'] := List.mem_append_right sv (by simp)
  have htrim : trimSpace (sv ++ ['-']) = sv ++ ['-'] := by
    apply trimSpace_eq_self
    intro ch hch
    rcases List.mem_append.mp hch with hch | hch
    · exact hnospace0 ch hch
    · rw [List.mem_singleton.mp hch]; decide
  have hne : sv ++ ['-'] ≠ [] := by simp
  have hstar : sv ++ ['-'] ≠ ['*'] := by
    intro hh
    exact absurd (List.mem_singleton.mp (hh ▸ hmd)) (by decide)
  have hq : sv ++ ['-'] ≠ ['?'] := by
    intro hh
    exact absurd (List.mem_singleton.mp (hh ▸ hmd)) (by decide)
  have hcomma : ',' ∉ sv ++ ['-'] := by
    intro hm
    rcases List.mem_append.mp hm with hm | hm
    · exact hcomma0 hm
    · exact absurd (List.mem_singleton.mp hm) (by decide)
  have hslash : '/' ∉ sv ++ ['-'] := by
    intro hm
    rcases List.mem_append.mp hm with hm | hm
    · exact hslash0 hm
    · exact absurd (List.mem_singleton.mp hm) (by decide)
  constructor
  · rw [parseField_single _ lo hi htrim hne hstar hq hcomma]
    rw [parsePart, splitFirst_not_mem hslash]
    have hsv : sv ++ ['-'] = sv ++ '-' :: ([] : List Char) := rfl
    rw [parsePartRange, parseStartEnd]
    rw [hsv, splitFirst_append hnd]
    have hsvstar : ¬(sv = ['*'] ∨ sv = ['?']) := by
      rintro (h | h)
      · exact hstar0 h
      · exact hq0 h
    have hrange : ¬(v < lo ∨ hi > hi ∨ v > hi) := by
      rintro (h | h | h) <;> omega
    simp [if_neg hsvstar, hv, hrange]
    rw [if_neg (show ¬(v < lo ∨ hi < v) by omega)]
  · intro i
    rw [fillRange_testBit (by decide : (0 : Int) < 1) i]
    constructor
    · rintro ⟨hi64, k, hk, hkb⟩
      constructor
      · omega
      · exact hkb
    · rintro ⟨hvi, hihi⟩
      refine ⟨by omega, ((i : Int) - v).toNat, by omega, hihi⟩

/-- C10 witness: the open-ended range 5- over the minute bounds. -/
theorem claimC10_witness :
    atoi "5".toList = some 5 ∧
      parseField ("5".toList ++ ['-']) 0 59 = .ok (fillRange 5 59 1) ∧
      (∀ i : Nat, (fillRange 5 59 1).testBit i = true ↔
        (5 ≤ (i : Int) ∧ (i : Int) ≤ 59)) :=
  ⟨by decide,
    claimC10_open_ended_range "5".toList 5 0 59 (by decide) (by decide)
      (by decide) (by decide) (by decide)⟩

/-- C2: a part of the form a-b/c with bounds-respecting endpoints and a
positive step compiles to the bitmask whose set bits are exactly the
arithmetic progression from a stepping by c, intersected with the closed
interval from a to b; in particular 10-30/3 over bounds 0..59 yields
exactly the bits 10, 13, 16, 19, 22, 25, 28. Note that the cons operator
binds tighter than append, so the field text groups as
(sa ++ '-' :: sb) ++ '/' :: sc. -/
theorem claimC2_range_step (sa sb sc : List Char) (a b c lo hi : Int)
    (ha : atoi sa = some a) (hb : atoi sb = some b) (hc : atoi sc = some c)
    (hnd : '-' ∉ sa) (h1 : lo ≤ a) (h2 : a ≤ b) (h3 : b ≤ hi) (h4 : 0 < c)
    (h64 : hi ≤ 63) :
    (parseField (sa ++ '-' :: sb ++ '/' :: sc) lo hi =
        .ok (fillRange a b c) ∧
      ∀ i : Nat, (fillRange a b c).testBit i = true ↔
        (a ≤ (i : Int) ∧ (i : Int) ≤ b ∧
          ∃ k : Nat, (i : Int) = a + (k : Int) * c)) ∧
    parseField "10-30/3".toList 0 59 =
      .ok (2 ^ 10 + 2 ^ 13 + 2 ^ 16 + 2 ^ 19 + 2 ^ 22 + 2 ^ 25 + 2 ^ 28) := by
  obtain ⟨hane, haslash, hacomma, hastar, haq, haspace⟩ := atoi_no_special ha
  obtain ⟨hbne, hbslash, hbcomma, hbstar, hbq, hbspace⟩ := atoi_no_special hb
  obtain ⟨hcne, hcslash, hccomma, hcstar, hcq, hcspace⟩ := atoi_no_special hc
  have hmd : '-' ∈ sa ++ '-' :: sb ++ '/' :: sc :=
    List.mem_append_left _ (List.mem_append_right sa (List.mem_cons_self '-' sb))
  have hms : '/' ∈ sa ++ '-' :: sb ++ '/' :: sc :=
    List.mem_append_right _ (List.mem_cons_self '/' sc)
  have htrim : trimSpace (sa ++ '-' :: sb ++ '/' :: sc) =
      sa ++ '-' :: sb ++ '/' :: sc := by
    apply trimSpace_eq_self
    intro ch hch
    rcases List.mem_append.mp hch with hch | hch
    · rcases List.mem_append.mp hch with hch | hch
      · exact haspace ch hch
      · rcases List.mem_cons.mp hch with rfl | hch
        · decide
        · exact hbspace ch hch
    · rcases List.mem_cons.mp hch with rfl | hch
      · decide
      · exact hcspace ch hch
  have hne : sa ++ '-' :: sb ++ '/' :: sc ≠ [] := by
    intro hh
    rw [hh] at hmd
    cases hmd
  have hstar : sa ++ '-' :: sb ++ '/' :: sc ≠ ['*'] := by
    intro hh
    exact absurd (List.mem_singleton.mp (hh ▸ hms)) (by decide)
  have hq : sa ++ '-' :: sb ++ '/' :: sc ≠ ['?'] := by
    intro hh
    exact absurd (List.mem_singleton.mp (hh ▸ hms)) (by decide)
  have hcomma : ',' ∉ sa ++ '-' :: sb ++ '/' :: sc := by
    intro hm
    rcases List.mem_append.mp hm with hm | hm
    · rcases List.mem_append.mp hm with hm | hm
      · exact hacomma hm
      · rcases List.mem_cons.mp hm with he | hm
        · exact absurd he (by decide)
        · exact hbcomma hm
    · rcases List.mem_cons.mp hm with he | hm
      · exact absurd he (by decide)
      · exact hccomma hm
  have hrslash : '/' ∉ sa ++ '-' :: sb := by
    intro hm
    rcases List.mem_append.mp hm with hm | hm
    · exact haslash hm
    · rcases List.mem_cons.mp hm with he | hm
      · exact absurd he (by decide)
      · exact hbslash hm
  refine ⟨⟨?_, ?_⟩, by decide⟩
  · rw [parseField_single _ lo hi htrim hne hstar hq hcomma]
    rw [parsePart, splitFirst_append hrslash]
    have hcondF : ¬(sa ++ '-' :: sb ≠ ['*'] ∧ sa ++ '-' :: sb ≠ ['?'] ∧
        '-' ∉ sa ++ '-' :: sb) := by
      rintro ⟨_, _, hdm⟩
      exact hdm (List.mem_append_right sa (List.mem_cons_self '-' sb))
    simp only [if_neg hcondF, hc]
    rw [parsePartRange, parseStartEnd, splitFirst_append hnd]
    have hsastar : ¬(sa = ['*'] ∨ sa = ['?']) := by
      rintro (h | h)
      · exact hastar h
      · exact haq h
    have hrange : ¬(a < lo ∨ b > hi ∨ a > b) := by
      rintro (h | h | h) <;> omega
    simp [if_neg hsastar, ha, hbne, hb, hrange, not_le.mpr h4]
  · intro i
    rw [fillRange_testBit h4 i]
    constructor
    · rintro ⟨hi64, k, hk, hkb⟩
      have hkc : (0 : Int) ≤ (k : Int) * c :=
        mul_nonneg (Int.natCast_nonneg k) h4.le
      exact ⟨by omega, hkb, k, hk⟩
    · rintro ⟨hai, hib, k, hk⟩
      exact ⟨by omega, k, hk, hib⟩

/-- C2 witness: the spec example 10-30/3 over the minute bounds. -/
theorem claimC2_witness :
    atoi "10".toList = some 10 ∧
      ((parseField ("10".toList ++ '-' :: "30".toList ++ '/' :: "3".toList)
          0 59 = .ok (fillRange 10 30 3) ∧
        ∀ i : Nat, (fillRange 10 30 3).testBit i = true ↔
          (10 ≤ (i : Int) ∧ (i : Int) ≤ 30 ∧
            ∃ k : Nat, (i : Int) = 10 + (k : Int) * 3)) ∧
      parseField "10-30/3".toList 0 59 =
        .ok (2 ^ 10 + 2 ^ 13 + 2 ^ 16 + 2 ^ 19 + 2 ^ 22 + 2 ^ 25 + 2 ^ 28)) :=
  ⟨by decide,
    claimC2_range_step "10".toList "30".toList "3".toList 10 30 3 0 59
      (by decide) (by decide) (by decide) (by decide) (by decide) (by decide)
      (by decide) (by decide) (by decide)⟩

theorem parsePartRange_bits {part : List Char} {lo hi interval : Int}
    {bits : Nat} (h : parsePartRange part lo hi interval = .ok bits) :
    ∀ i : Nat, bits.testBit i = true → (lo ≤ (i : Int) ∧ (i : Int) ≤ hi) := by
  intro i hbit
  rw [parsePartRange] at h
  cases hse : parseStartEnd part lo hi with
  | error e => rw [hse] at h; cases h
  | ok se =>
    rcases se with ⟨sI, eI⟩
    rw [hse] at h
    have h2 : (if sI < lo ∨ eI > hi ∨ sI > eI then
        (Except.error (ParseErr.outOfRange lo hi part) : Except ParseErr Nat)
      else if interval ≤ 0 then Except.error ParseErr.nonpositiveStep
      else Except.ok (fillRange sI eI interval)) = Except.ok bits := h
    by_cases hrange : sI < lo ∨ eI > hi ∨ sI > eI
    · rw [if_pos hrange] at h2
      cases h2
    · rw [if_neg hrange] at h2
      by_cases hiv : interval ≤ 0
      · rw [if_pos hiv] at h2
        cases h2
      · rw [if_neg hiv] at h2
        cases h2
        have hc : 0 < interval := by omega
        obtain ⟨h64, k, hk, hkb⟩ := (fillRange_testBit hc i).mp hbit
        have hkc : (0 : Int) ≤ (k : Int) * interval :=
          mul_nonneg (Int.natCast_nonneg k) hc.le
        omega

theorem parsePart_bits {s part : List Char} {lo hi : Int} {bits : Nat}
    (h : parsePart s part lo hi = .ok bits) :
    ∀ i : Nat, bits.testBit i = true → (lo ≤ (i : Int) ∧ (i : Int) ≤ hi) := by
  rw [parsePart] at h
  cases hsp : splitFirst '/' part with
  | mk r step? =>
    rw [hsp] at h
    cases step? with
    | none => exact parsePartRange_bits h
    | some step =>
      have h2 : (if r ≠ ['*'] ∧ r ≠ ['?'] ∧ '-' ∉ r then
          (Except.error (ParseErr.stepWithoutRange s) : Except ParseErr Nat)
        else
          match atoi step with
          | none => Except.error (ParseErr.badStep step)
          | some interval => parsePartRange r lo hi interval) =
          Except.ok bits := h
      by_cases hcond : r ≠ ['*'] ∧ r ≠ ['?'] ∧ '-' ∉ r
      · rw [if_pos hcond] at h2
        cases h2
      · rw [if_neg hcond] at h2
        cases hai : atoi step with
        | none => rw [hai] at h2; cases h2
        | some interval =>
          rw [hai] at h2
          exact parsePartRange_bits h2

theorem parseParts_bits {s : List Char} {lo hi : Int} :
    ∀ (parts : List (List Char)) (f bits : Nat),
      parseParts s lo hi parts f = .ok bits →
      (∀ i : Nat, f.testBit i = true → (lo ≤ (i : Int) ∧ (i : Int) ≤ hi)) →
      ∀ i : Nat, bits.testBit i = true → (lo ≤ (i : Int) ∧ (i : Int) ≤ hi) := by
  intro parts
  induction parts with
  | nil =>
    intro f bits h hf
    rw [parseParts] at h
    cases h
    exact hf
  | cons part rest ih =>
    intro f bits h hf
    rw [parseParts] at h
    cases hp : parsePart s part lo hi with
    | error e => rw [hp] at h; cases h
    | ok pbits =>
      rw [hp] at h
      refine ih (f ||| pbits) bits h ?_
      intro i hi2
      rw [Nat.testBit_or, Bool.or_eq_true] at hi2
      rcases hi2 with hi2 | hi2
      · exact hf i hi2
      · exact parsePart_bits hp i hi2

/-- C6 counterexample: the claim fails as stated, because the wildcard
compiles to the all-ones mask: compiling the asterisk with the minute
bounds succeeds yet sets bit 63, far outside 0..59. -/
theorem claimC6_counterexample :
    parseField ['*'] 0 59 = .ok starMask ∧
      starMask.testBit 63 = true ∧ ¬((63 : Int) ≤ 59) := by
  refine ⟨by decide, by decide, by decide⟩

/-- C6 amended: unless the trimmed field text is exactly the asterisk or
the question mark (which compile to the all-ones mask), a successful
compile sets no bit outside the field bounds. -/
theorem claimC6_bits_within_bounds {s : List Char} {lo hi : Int} {f : Nat}
    (h : parseField s lo hi = .ok f) (hstar : trimSpace s ≠ ['*'])
    (hq : trimSpace s ≠ ['?']) :
    ∀ i : Nat, f.testBit i = true → (lo ≤ (i : Int) ∧ (i : Int) ≤ hi) := by
  rw [parseField] at h
  by_cases hnil : trimSpace s = []
  · rw [if_pos hnil] at h
    cases h
  · rw [if_neg hnil] at h
    have hns : ¬(trimSpace s = ['*'] ∨ trimSpace s = ['?']) := by
      rintro (hh | hh)
      · exact hstar hh
      · exact hq hh
    rw [if_neg hns] at h
    refine parseParts_bits _ 0 f h ?_
    intro i hi2
    rw [Nat.zero_testBit] at hi2
    cases hi2

/-- C6 witness: the amended bound statement applied to the part 10-30/3
over the minute bounds, checked at bit 13. -/
theorem claimC6_witness :
    parseField "10-30/3".toList 0 59 = .ok (fillRange 10 30 3) ∧
      (fillRange 10 30 3).testBit 13 = true ∧
      (0 ≤ (13 : Int) ∧ (13 : Int) ≤ 59) :=
  ⟨by decide, by decide,
    @claimC6_bits_within_bounds ("10-30/3".toList) 0 59 (fillRange 10 30 3)
      (by decide) (by decide) (by decide) 13 (by decide)⟩

theorem buildTriggered_fst {ε : Type} (events : List Event) :
    (buildTriggered (ε := ε) events).1 = firedKeys events := by
  induction events with
  | nil => rfl
  | cons ev rest ih =>
    rw [buildTriggered]
    rcases hbt : buildTriggered (ε := ε) rest with ⟨ks, ls⟩
    have hks : ks = firedKeys rest := by
      rw [← ih, hbt]
    by_cases hname : ev.Entry.Name = []
    · simp [hname, hks, firedKeys, List.filter_cons]
    · simp [hname, hks, firedKeys, List.filter_cons]

theorem checkEntries_memOps (onT : GoTime) (keys : List (List Char)) :
    ∀ (l : List Entry) (m : MemStore),
      checkEntries memOps onT keys m l =
        ({ entries := m.entries,
           events := m.events ++ (l.filter (firesB onT keys)).map
             (fun e => { Entry := e, Time := onT }) },
         (l.filter (firesB onT keys)).map (fun e => e.Name),
         (l.filter (fun e => e.Name = [])).map
           (fun e => CheckErr.emptyEntryName e)) := by
  intro l
  induction l with
  | nil =>
    intro m
    rw [checkEntries]
    simp
  | cons e rest ih =>
    intro m
    rw [checkEntries]
    by_cases hname : e.Name = []
    · have hfB : firesB onT keys e = false := by
        simp [firesB, hname]
      rw [if_pos hname, ih m]
      simp [List.filter_cons, hname, hfB]
    · rw [if_neg hname]
      by_cases hmatch : e.Match onT
      · rw [if_pos hmatch]
        by_cases hkey : entryKey e onT ∈ keys
        · have hfB : firesB onT keys e = false := by
            simp [firesB, hkey]
          rw [if_pos hkey, ih m]
          simp [List.filter_cons, hname, hfB]
        · have hfB : firesB onT keys e = true := by
            simp [firesB, hname, hmatch, hkey]
          rw [if_neg hkey]
          have haddev : memOps.addEvent m { Entry := e, Time := onT } =
              (memAddEvent m { Entry := e, Time := onT }, none) := rfl
          rw [haddev]
          simp only [ih (memAddEvent m { Entry := e, Time := onT })]
          simp [List.filter_cons, hname, hfB, memAddEvent]
      · have hfB : firesB onT keys e = false := by
          simp [firesB, hmatch]
        rw [if_neg hmatch, ih m]
        simp [List.filter_cons, hname, hfB, hmatch]

theorem check_memOps (m : MemStore) (onT : GoTime) :
    check memOps m onT =
      { store :=
          { entries := m.entries,
            events := m.events ++
              (m.entries.filter (firesB onT
                (firedKeys (memGetEvents m onT (tAdd onT 60))))).map
                (fun e => { Entry := e, Time := onT }) },
        dispatched :=
          (m.entries.filter (firesB onT
            (firedKeys (memGetEvents m onT (tAdd onT 60))))).map
            (fun e => e.Name),
        logged :=
          (buildTriggered (ε := Empty)
              (memGetEvents m onT (tAdd onT 60))).2 ++
            (m.entries.filter (fun e => e.Name = [])).map
              (fun e => CheckErr.emptyEntryName e),
        ret := none } := by
  rcases hbt : buildTriggered (ε := Empty) (memGetEvents m onT (tAdd onT 60))
    with ⟨ks, ls⟩
  have hks : ks = firedKeys (memGetEvents m onT (tAdd onT 60)) := by
    rw [← buildTriggered_fst (ε := Empty), hbt]
  have h1 : ∀ s, memOps.lock s = (s, none) := fun s => rfl
  have h2 : ∀ s, memOps.getEntries s = (s, .ok s.entries) := fun s => rfl
  have h3 : ∀ s a b, memOps.getEvents s a b = (s, .ok (memGetEvents s a b)) :=
    fun s a b => rfl
  have h4 : ∀ s, memOps.unlock s = (s, none) := fun s => rfl
  simp only [check, h1, h2, h3, h4, checkEntries_memOps, hbt, hks]

theorem firedKeys_append (l1 l2 : List Event) :
    firedKeys (l1 ++ l2) = firedKeys l1 ++ firedKeys l2 := by
  simp [firedKeys]

theorem memGetEventsList_append (fromT toT : GoTime) (l1 l2 : List Event) :
    memGetEventsList fromT toT (l1 ++ l2) =
      memGetEventsList fromT toT l1 ++ memGetEventsList fromT toT l2 := by
  simp [memGetEventsList_eq_filter]

theorem memGetEventsList_map_at (onT : GoTime) (l : List Entry) :
    memGetEventsList onT (tAdd onT 60)
        (l.map (fun e => { Entry := e, Time := onT })) =
      l.map (fun e => { Entry := e, Time := onT }) := by
  rw [memGetEventsList_eq_filter]
  apply List.filter_eq_self.mpr
  intro ev hev
  rcases List.mem_map.mp hev with ⟨e, _, rfl⟩
  simp [tEqual, tBefore, tAfter, tAdd]

theorem firedKeys_map_at (onT : GoTime) (keys : List (List Char))
    (l : List Entry) :
    firedKeys ((l.filter (firesB onT keys)).map
        (fun e => { Entry := e, Time := onT })) =
      (l.filter (firesB onT keys)).map (fun e => entryKey e onT) := by
  rw [firedKeys]
  have hall : ∀ ev ∈ (l.filter (firesB onT keys)).map
      (fun e => { Entry := e, Time := onT }),
      (fun ev : Event => decide (ev.Entry.Name ≠ [])) ev = true := by
    intro ev hev
    rcases List.mem_map.mp hev with ⟨e, he, rfl⟩
    have hf := List.of_mem_filter he
    simp only [firesB, Bool.and_eq_true, decide_eq_true_eq] at hf
    simp [hf.1.1]
  rw [List.filter_eq_self.mpr hall, List.map_map]
  rfl

/-- C1 counterexample: the claim as stated fails, because an entry whose
dedup key is already recorded in the store for that minute gets no handler
dispatch at all. Here a matching entry with a non-empty name has its event
pre-recorded; two check invocations with the same timestamp dispatch zero
handlers for it, not exactly one, and add no event. -/
theorem claimC1_counterexample :
    (let eA : Entry := { Name := ['A'], Location := 0, Meta := [],
                         expression := [], minute := starMask,
                         hour := starMask, dom := starMask,
                         month := starMask, dow := starMask }
     let t0 : GoTime := { abs := 0, loc := 0 }
     let m : MemStore := { entries := [eA],
                           events := [{ Entry := eA, Time := t0 }] }
     let r1 := check memOps m t0
     let r2 := check memOps r1.store t0
     t0.abs % 60 = 0 ∧ eA.Match t0 = true ∧ eA.Name ≠ [] ∧
       r1.dispatched = [] ∧ r2.dispatched = [] ∧
       r1.store.events = m.events ∧ r2.store.events = m.events) := by
  decide

/-- Helper: a check cycle against a MemStore state in which no entry newly
fires persists nothing and dispatches nothing. -/
theorem check_memOps_no_new (m2 : MemStore) (onT : GoTime)
    (hnil : m2.entries.filter (firesB onT (firedKeys (memGetEvents m2 onT (tAdd onT 60)))) = []) :
    (check memOps m2 onT).ret = none ∧
    (check memOps m2 onT).store.events = m2.events ∧
    (check memOps m2 onT).dispatched = [] := by
  have h := check_memOps m2 onT
  rw [hnil] at h
  simp only [List.map_nil, List.append_nil] at h
  refine ⟨by rw [h], by rw [h], by rw [h]⟩

/-- C1 amended: for every store state and minute-truncated timestamp, one
check invocation persists exactly one Event and initiates exactly one
handler dispatch per matching entry with a non-empty name whose dedup key
(name with the timestamp formatted to minute granularity) is not already
recorded among the events of that minute, and nothing for entries whose
key is already recorded; a second invocation with the same timestamp finds
every such key already recorded, persists nothing new and dispatches no
handler. The original claim promised one dispatch for every matching
entry, which fails when the key is pre-recorded (see the counterexample). -/
theorem claimC1_check_idempotent (m : MemStore) (onT : GoTime)
    (htrunc : onT.abs % 60 = 0) :
    (check memOps m onT).ret = none ∧
    (check memOps m onT).store.entries = m.entries ∧
    (check memOps m onT).store.events = m.events ++ (m.entries.filter (firesB onT (firedKeys (memGetEvents m onT (tAdd onT 60))))).map (fun e => { Entry := e, Time := onT }) ∧
    (check memOps m onT).dispatched = (m.entries.filter (firesB onT (firedKeys (memGetEvents m onT (tAdd onT 60))))).map (fun e => e.Name) ∧
    (check memOps (check memOps m onT).store onT).ret = none ∧
    (check memOps (check memOps m onT).store onT).store.events = (check memOps m onT).store.events ∧
    (check memOps (check memOps m onT).store onT).dispatched = [] := by
  have h1 := check_memOps m onT
  have hm1 : (check memOps m onT).store = { entries := m.entries, events := m.events ++ (m.entries.filter (firesB onT (firedKeys (memGetEvents m onT (tAdd onT 60))))).map (fun e => { Entry := e, Time := onT }) } := by
    rw [h1]
  have hm1entries : (check memOps m onT).store.entries = m.entries := by
    rw [hm1]
  have hm1events : (check memOps m onT).store.events = m.events ++ (m.entries.filter (firesB onT (firedKeys (memGetEvents m onT (tAdd onT 60))))).map (fun e => { Entry := e, Time := onT }) := by
    rw [hm1]
  have hge2 : memGetEvents (check memOps m onT).store onT (tAdd onT 60) = memGetEvents m onT (tAdd onT 60) ++ (m.entries.filter (firesB onT (firedKeys (memGetEvents m onT (tAdd onT 60))))).map (fun e => { Entry := e, Time := onT }) := by
    rw [memGetEvents, hm1events, memGetEventsList_append, memGetEventsList_map_at]
    rfl
  have hkeys2 : firedKeys (memGetEvents (check memOps m onT).store onT (tAdd onT 60)) = firedKeys (memGetEvents m onT (tAdd onT 60)) ++ (m.entries.filter (firesB onT (firedKeys (memGetEvents m onT (tAdd onT 60))))).map (fun e => entryKey e onT) := by
    rw [hge2, firedKeys_append, firedKeys_map_at]
  have hnil : (check memOps m onT).store.entries.filter (firesB onT (firedKeys (memGetEvents (check memOps m onT).store onT (tAdd onT 60)))) = [] := by
    rw [hkeys2, hm1entries]
    apply List.filter_eq_nil.mpr
    intro e he hf
    simp only [firesB, Bool.and_eq_true, decide_eq_true_eq] at hf
    obtain ⟨⟨hname, hmatch⟩, hkey⟩ := hf
    have hkey1 : entryKey e onT ∉ firedKeys (memGetEvents m onT (tAdd onT 60)) := by
      intro hc
      exact hkey (List.mem_append_left _ hc)
    have hmem : e ∈ m.entries.filter (firesB onT (firedKeys (memGetEvents m onT (tAdd onT 60)))) := by
      apply List.mem_filter.mpr
      refine ⟨he, ?_⟩
      simp [firesB, hname, hmatch, hkey1]
    exact hkey (List.mem_append_right _ (List.mem_map_of_mem (fun e => entryKey e onT) hmem))
  obtain ⟨hr2, he2, hd2⟩ := check_memOps_no_new (check memOps m onT).store onT hnil
  exact ⟨by rw [h1], hm1entries, hm1events, by rw [h1], hr2, by rw [he2, hm1events], hd2⟩

/-- C1 witness: the amended idempotence statement applied to a concrete
store with two matching entries and a fresh event log. -/
theorem claimC1_witness :
    (let eA : Entry := { Name := ['A'], Location := 0, Meta := [], expression := [], minute := starMask, hour := starMask, dom := starMask, month := starMask, dow := starMask }
     let eB : Entry := { eA with Name := ['B'] }
     let t0 : GoTime := { abs := 60, loc := 0 }
     let m : MemStore := { entries := [eA, eB], events := [] }
     t0.abs % 60 = 0 ∧
       ((check memOps m t0).ret = none ∧
        (check memOps m t0).store.entries = m.entries ∧
        (check memOps m t0).store.events = m.events ++ (m.entries.filter (firesB t0 (firedKeys (memGetEvents m t0 (tAdd t0 60))))).map (fun e => { Entry := e, Time := t0 }) ∧
        (check memOps m t0).dispatched = (m.entries.filter (firesB t0 (firedKeys (memGetEvents m t0 (tAdd t0 60))))).map (fun e => e.Name) ∧
        (check memOps (check memOps m t0).store t0).ret = none ∧
        (check memOps (check memOps m t0).store t0).store.events = (check memOps m t0).store.events ∧
        (check memOps (check memOps m t0).store t0).dispatched = [])) :=
  ⟨by decide, claimC1_check_idempotent _ _ (by decide)⟩

/-- C9: during a check cycle, for a matching not-yet-fired entry whose
addEvent call fails, the handler is not dispatched for that entry, the
error is reported non-fatally in the log, and the loop continues with the
remaining entries from the post-addEvent store state: the result equals
the result of processing the rest, with the failure logged in front and
with no dispatch added for the failing entry. -/
theorem claimC9_addEvent_failure {σ ε : Type} (ops : StoreOps σ ε) (s : σ)
    (onT : GoTime) (keys : List (List Char)) (e : Entry) (rest : List Entry)
    (err : ε) (hname : e.Name ≠ []) (hmatch : e.Match onT = true)
    (hkey : entryKey e onT ∉ keys)
    (hfail : (ops.addEvent s { Entry := e, Time := onT }).2 = some err) :
    checkEntries ops onT keys s (e :: rest) =
      ((checkEntries ops onT keys (ops.addEvent s { Entry := e, Time := onT }).1 rest).1,
       (checkEntries ops onT keys (ops.addEvent s { Entry := e, Time := onT }).1 rest).2.1,
       CheckErr.addEventFailed err ::
         (checkEntries ops onT keys (ops.addEvent s { Entry := e, Time := onT }).1 rest).2.2) := by
  have haddev : ops.addEvent s { Entry := e, Time := onT } =
      ((ops.addEvent s { Entry := e, Time := onT }).1, some err) := by
    rw [← hfail]
  rw [checkEntries, if_neg hname, if_pos hmatch, if_neg hkey]
  rcases hrec : checkEntries ops onT keys
    (ops.addEvent s { Entry := e, Time := onT }).1 rest with ⟨s2, d, lg⟩
  rw [haddev]
  simp only [hrec]

/-- C9 witness: a store whose addEvent always fails, with one matching
entry: no dispatch, one logged failure, processing continues. -/
theorem claimC9_witness :
    (let failOps : StoreOps Nat Unit :=
       { lock := fun s => (s, none), unlock := fun s => (s, none),
         getEntries := fun s => (s, .ok []),
         getEvents := fun s a b => (s, .ok []),
         addEvent := fun s ev => (s + 1, some ()) }
     let eA : Entry := { Name := ['A'], Location := 0, Meta := [],
                         expression := [], minute := starMask,
                         hour := starMask, dom := starMask,
                         month := starMask, dow := starMask }
     let t0 : GoTime := { abs := 0, loc := 0 }
     eA.Name ≠ [] ∧ eA.Match t0 = true ∧
       (failOps.addEvent 0 { Entry := eA, Time := t0 }).2 = some () ∧
       checkEntries failOps t0 [] 0 [eA] =
         ((checkEntries failOps t0 []
             (failOps.addEvent 0 { Entry := eA, Time := t0 }).1 []).1,
          (checkEntries failOps t0 []
             (failOps.addEvent 0 { Entry := eA, Time := t0 }).1 []).2.1,
          CheckErr.addEventFailed () ::
            (checkEntries failOps t0 []
               (failOps.addEvent 0 { Entry := eA, Time := t0 }).1 []).2.2)) :=
  ⟨by decide, by decide, rfl,
    claimC9_addEvent_failure _ _ _ _ _ _ _ (by decide) (by decide)
      (by decide) rfl⟩
